import Mathlib

/-!
Shallow embedding of the placeholder-resolution engine of
`generate_mcp_config.py` (class `MCPConfigGenerator`), together with proofs
about it.

The engine works on JSON-like trees.  Its pieces, modelled below with the
source's names where possible:

* the compiled pattern `%([a-zA-Z_][a-zA-Z0-9_]*)%` and the two operations
  used on it, `findall` and `sub` (modelled by one left-to-right scanner
  producing a list of segments);
* `find_placeholders` — recursive placeholder discovery over dicts, lists
  and strings;
* `find_secret_values_from_credentials_recursively` — credential extraction
  over dicts only;
* `load_credentials` — strips `%` from the wanted names, then extracts;
* `replace_placeholders` — recursive substitution, raising (modelled as
  `Except.error`) on a placeholder with no mapping entry;
* `validate_template` and `generate_config` — the per-server driver loop
  with its missing/unused reconciliation.

Python dicts of strings are modelled as association lists with
insert-or-overwrite semantics; Python sets as `Finset String`.
-/

/-- Character class `[a-zA-Z_]`, the first character of a placeholder name. -/
def isNameStart (c : Char) : Bool := c.isAlpha || c == '_'

/-- Character class `[a-zA-Z0-9_]`, the remaining characters of a name. -/
def isNameChar (c : Char) : Bool := c.isAlphanum || c == '_'

/-- One segment of a scanned string: a literal character kept verbatim, or a
matched placeholder `%name%` (stored without the percent signs). -/
inductive Seg where
  | lit : Char → Seg
  | ph : String → Seg
deriving Repr, DecidableEq

/-- Attempt to match the tail of a placeholder at the current position: the
input is the character list just after a `%`; on success, returns the
matched name and the remaining characters after the closing `%`.  This is
what Python's regex engine does at a position where the pattern
`%([a-zA-Z_][a-zA-Z0-9_]*)%` is anchored: the name run is maximal because a
`%` is not a name character, so no backtracking alternative exists. -/
def tryMatch : List Char → Option (String × List Char)
  | [] => none
  | d :: ds =>
    if isNameStart d then
      match ds.dropWhile isNameChar with
      | '%' :: rest => some (String.mk (d :: ds.takeWhile isNameChar), rest)
      | _ => none
    else none

/-- Left-to-right non-overlapping scan of a string into segments, as
performed by `re.findall` / `re.sub`: at each position try to match the
pattern; on success consume the match, otherwise consume one literal
character.  Structural recursion on a fuel argument (instantiated with the
length of the list) keeps the definition kernel-reducible. -/
def scanFuel : Nat → List Char → List Seg
  | 0, _ => []
  | _ + 1, [] => []
  | fuel + 1, c :: cs =>
    if c == '%' then
      match tryMatch cs with
      | some (nm, rest) => .ph nm :: scanFuel fuel rest
      | none => .lit c :: scanFuel fuel cs
    else .lit c :: scanFuel fuel cs

/-- Scan a string into segments. -/
def scanStr (s : String) : List Seg := scanFuel s.data.length s.data

/-- Names of the placeholder segments, in order: `pattern.findall(s)`. -/
def segNames (segs : List Seg) : List String :=
  segs.filterMap fun sg => match sg with | .ph nm => some nm | .lit _ => none

/-- Model of `self.placeholder_pattern.findall(obj)` for a string `obj`. -/
def pattern_findall (s : String) : List String := segNames (scanStr s)

/-- Lookup in an association list modelling a Python dict (first entry with
the key wins; a Python dict holds each key at most once). -/
def alookup {α : Type} : List (String × α) → String → Option α
  | [], _ => none
  | (k', v') :: rest, k => if k' == k then some v' else alookup rest k

/-- Python dict assignment `d[k] = v`: overwrite in place if the key is
present, append otherwise. -/
def dinsert : List (String × String) → String → String → List (String × String)
  | [], k, v => [(k, v)]
  | (k', v') :: rest, k, v =>
    if k' == k then (k', v) :: rest else (k', v') :: dinsert rest k v

/-- Python `base.update(upd)`: insert every entry of `upd` into `base`, in
order, overwriting existing keys. -/
def dmerge (base upd : List (String × String)) : List (String × String) :=
  upd.foldl (fun a p => dinsert a p.1 p.2) base

/-- Key set of a dict, `set(d.keys())`. -/
def dkeys (m : List (String × String)) : Finset String :=
  (m.map Prod.fst).toFinset

/-- Model of `self.placeholder_pattern.sub(replace_func, obj)` where
`replace_func` looks the matched name up in `credentials` and raises
`ValueError` (here: `Except.error` carrying the name) when absent.  Literal
segments are copied; placeholder segments are replaced by the looked-up
value verbatim — the replacement is spliced in and never re-scanned. -/
def renderSegs : List Seg → List (String × String) → Except String (List Char)
  | [], _ => .ok []
  | .lit ch :: rest, c =>
    match renderSegs rest c with
    | .ok t => .ok (ch :: t)
    | .error e => .error e
  | .ph nm :: rest, c =>
    match alookup c nm with
    | some v =>
      match renderSegs rest c with
      | .ok t => .ok (v.data ++ t)
      | .error e => .error e
    | none => .error nm

/-- Substitution on one string scalar (the `isinstance(obj, str)` branch of
`replace_placeholders`). -/
def pattern_sub (s : String) (c : List (String × String)) : Except String String :=
  match renderSegs (scanStr s) c with
  | .ok t => .ok (String.mk t)
  | .error e => .error e

/-- JSON-like values, the data the Python code manipulates after
`json.load`: dicts, lists, strings, numbers, booleans, null. -/
inductive Json where
  | obj : List (String × Json) → Json
  | arr : List Json → Json
  | str : String → Json
  | num : Int → Json
  | bool : Bool → Json
  | null : Json
deriving Repr

mutual

/-- `MCPConfigGenerator.find_placeholders`: recursively collect all
placeholder names occurring in string scalars, over dict values and list
items. -/
def find_placeholders : Json → Finset String
  | .obj kvs => findPlaceholdersObj kvs
  | .arr xs => findPlaceholdersArr xs
  | .str s => (pattern_findall s).toFinset
  | _ => ∅

/-- Placeholders of the values of a dict (`for value in obj.values()`). -/
def findPlaceholdersObj : List (String × Json) → Finset String
  | [] => ∅
  | (_, v) :: rest => find_placeholders v ∪ findPlaceholdersObj rest

/-- Placeholders of the items of a list (`for item in obj`). -/
def findPlaceholdersArr : List Json → Finset String
  | [] => ∅
  | x :: rest => find_placeholders x ∪ findPlaceholdersArr rest

end

mutual

/-- `MCPConfigGenerator.find_secret_values_from_credentials_recursively`:
walk a credential document; only the dict branch contributes.  For each
entry, a string value is recorded when its key is wanted; a non-string
value is recursed into (and the recursion yields nothing unless it is a
dict). -/
def find_secret_values_from_credentials_recursively
    (obj : Json) (keys : Finset String) : List (String × String) :=
  match obj with
  | .obj kvs => findSecretsObj kvs keys []
  | _ => []

/-- The `for key, value in obj.items()` loop, threading the accumulated
`credentials` dict. -/
def findSecretsObj (kvs : List (String × Json)) (keys : Finset String)
    (credentials : List (String × String)) : List (String × String) :=
  match kvs with
  | [] => credentials
  | (k, v) :: rest =>
    match v with
    | .str s =>
      findSecretsObj rest keys (if k ∈ keys then dinsert credentials k s else credentials)
    | other =>
      findSecretsObj rest keys
        (dmerge credentials (find_secret_values_from_credentials_recursively other keys))

end

/-- Python `x.strip('%')`: remove all leading and trailing `%` characters. -/
def stripPercent (s : String) : String :=
  String.mk (((s.data.dropWhile (· == '%')).reverse.dropWhile (· == '%')).reverse)

/-- `MCPConfigGenerator.load_credentials`, after file loading: strip `%`
from the requested placeholder names and extract matching secrets from the
parsed credential document. -/
def load_credentials (credt_file_content : Json)
    (placeholder_list : Finset String) : List (String × String) :=
  find_secret_values_from_credentials_recursively credt_file_content
    (placeholder_list.image stripPercent)

mutual

/-- `MCPConfigGenerator.replace_placeholders`: recursively substitute
placeholders in string scalars; dict keys are kept, values substituted;
list items substituted; other scalars pass through.  An unmapped
placeholder occurrence raises `ValueError` (modelled as `Except.error`
carrying the placeholder name). -/
def replace_placeholders (obj : Json) (credentials : List (String × String)) :
    Except String Json :=
  match obj with
  | .obj kvs =>
    match replaceObj kvs credentials with
    | .ok kvs' => .ok (.obj kvs')
    | .error e => .error e
  | .arr xs =>
    match replaceArr xs credentials with
    | .ok xs' => .ok (.arr xs')
    | .error e => .error e
  | .str s =>
    match pattern_sub s credentials with
    | .ok t => .ok (.str t)
    | .error e => .error e
  | j => .ok j

/-- The dict comprehension of `replace_placeholders`: keys unchanged,
values substituted in order. -/
def replaceObj (kvs : List (String × Json)) (credentials : List (String × String)) :
    Except String (List (String × Json)) :=
  match kvs with
  | [] => .ok []
  | (k, v) :: rest =>
    match replace_placeholders v credentials with
    | .error e => .error e
    | .ok v' =>
      match replaceObj rest credentials with
      | .error e => .error e
      | .ok rest' => .ok ((k, v') :: rest')

/-- The list comprehension of `replace_placeholders`. -/
def replaceArr (xs : List Json) (credentials : List (String × String)) :
    Except String (List Json) :=
  match xs with
  | [] => .ok []
  | x :: rest =>
    match replace_placeholders x credentials with
    | .error e => .error e
    | .ok x' =>
      match replaceArr rest credentials with
      | .error e => .error e
      | .ok rest' => .ok (x' :: rest')

end

/-- `MCPConfigGenerator.validate_template`: the list of structural error
messages, in the source's wording and early-return order. -/
def validate_template (template : Json) : List String :=
  match template with
  | .obj kvs =>
    match alookup kvs "servers" with
    | none => ["Template must contain a 'servers' section"]
    | some (.obj svs) =>
      if svs.isEmpty then ["'servers' section cannot be empty"] else []
    | some _ => ["'servers' section must be a JSON object"]
  | _ => ["Template must be a JSON object"]

/-- Errors raised by `generate_config` (the Python code uses
`FileNotFoundError` / `ValueError` with distinguishing messages; each
constructor carries the data the message interpolates). -/
inductive GenError where
  | templateInvalid : List String → GenError
  | credFileMissing : String → GenError
  | missingCredentials : String → Finset String → GenError
  | missingCredential : String → GenError

/-- The per-server loop of `MCPConfigGenerator.generate_config`: for each
server, find placeholders; none means pass-through; otherwise load the
credential file (absence is fatal), reconcile — a non-empty missing set is
fatal and reported with the server name and the full set, a non-empty
unused set is only printed — and substitute. -/
def processServers (files : String → Option Json) :
    List (String × Json) → Except GenError (List (String × Json))
  | [] => .ok []
  | (server_name, server_config) :: rest =>
    let placeholders := find_placeholders server_config
    if placeholders = ∅ then
      match processServers files rest with
      | .ok rest' => .ok ((server_name, server_config) :: rest')
      | .error e => .error e
    else
      match files server_name with
      | none => .error (.credFileMissing server_name)
      | some credt_file_content =>
        let credentials := load_credentials credt_file_content placeholders
        let missing_credentials := placeholders \ dkeys credentials
        if missing_credentials = ∅ then
          match replace_placeholders server_config credentials with
          | .error p => .error (.missingCredential p)
          | .ok processed_config =>
            match processServers files rest with
            | .ok rest' => .ok ((server_name, processed_config) :: rest')
            | .error e => .error e
        else .error (.missingCredentials server_name missing_credentials)

/-- The unused-credentials set computed at lines 291–295 of the source for
one server: `set(credentials.keys()) - placeholders`, where the credentials
were loaded for exactly that placeholder set. -/
def unusedCredentials (server_config : Json) (credt_file_content : Json) :
    Finset String :=
  dkeys (load_credentials credt_file_content (find_placeholders server_config)) \
    find_placeholders server_config

/-- `MCPConfigGenerator.generate_config`, with file loading abstracted into
a map from server name to parsed credential document: validate the
template, process every server, then rebuild the template with the
`servers` entry replaced (`template.copy()` plus assignment). -/
def generate_config (template : Json) (files : String → Option Json) :
    Except GenError Json :=
  match validate_template template with
  | [] =>
    match template with
    | .obj kvs =>
      match alookup kvs "servers" with
      | some (.obj svs) =>
        match processServers files svs with
        | .ok svs' =>
          .ok (.obj (kvs.map fun p =>
            if p.1 == "servers" then ("servers", Json.obj svs') else p))
        | .error e => .error e
      | _ => .error (.templateInvalid [])
    | _ => .error (.templateInvalid [])
  | errors => .error (.templateInvalid errors)


/-- A segment that is not a stray percent sign: every literal character is
different from `%` (placeholder segments qualify). -/
def segLitNotPct (sg : Seg) : Bool :=
  match sg with
  | .lit ch => ch != '%'
  | .ph _ => true

/-- Every `%` of the string is part of a matched placeholder: the scan of
the string has no stray `%` literal. -/
def noStrayStr (s : String) : Bool := (scanStr s).all segLitNotPct

/-- Every secret value of a credential mapping is free of the `%`
character. -/
def pctFreeVals (c : List (String × String)) : Bool :=
  c.all fun p => p.2.data.all (· != '%')

mutual

/-- Every string scalar of the document has no stray `%` literal outside
matched placeholders. -/
def noStray : Json → Bool
  | .obj kvs => noStrayObj kvs
  | .arr xs => noStrayArr xs
  | .str s => noStrayStr s
  | _ => true

/-- `noStray` over the values of a dict. -/
def noStrayObj : List (String × Json) → Bool
  | [] => true
  | (_, v) :: rest => noStray v && noStrayObj rest

/-- `noStray` over the items of a list. -/
def noStrayArr : List Json → Bool
  | [] => true
  | x :: rest => noStray x && noStrayArr rest

end

/-! ### Basic lemmas about the scanner -/

theorem dropWhile_length_le {α : Type} (p : α → Bool) (l : List α) :
    (l.dropWhile p).length ≤ l.length := by
  induction l with
  | nil => simp
  | cons a l ih =>
    by_cases h : p a
    · simp only [List.dropWhile_cons, h, if_true]
      exact Nat.le_succ_of_le ih
    · simp [List.dropWhile_cons, h]

theorem tryMatch_rest_length {cs : List Char} {nm : String} {rest : List Char}
    (h : tryMatch cs = some (nm, rest)) : rest.length < cs.length := by
  match cs with
  | [] => simp [tryMatch] at h
  | d :: ds =>
    simp only [tryMatch] at h
    split at h
    · split at h
      · rename_i rest0 heq
        simp only [Option.some.injEq, Prod.mk.injEq] at h
        obtain ⟨-, h2⟩ := h
        subst h2
        have hlen : (ds.dropWhile isNameChar).length ≤ ds.length :=
          dropWhile_length_le _ _
        rw [heq] at hlen
        simp only [List.length_cons] at hlen ⊢
        omega
      · exact absurd h (by simp)
    · exact absurd h (by simp)

theorem scanFuel_nil (f : Nat) : scanFuel f [] = [] := by
  cases f <;> rfl

theorem scanFuel_congr : ∀ f1 : Nat, ∀ f2 : Nat, ∀ l : List Char,
    l.length ≤ f1 → l.length ≤ f2 → scanFuel f1 l = scanFuel f2 l := by
  intro f1
  induction f1 with
  | zero =>
    intro f2 l h1 _
    have : l = [] := List.length_eq_zero.mp (Nat.le_zero.mp h1)
    subst this
    rw [scanFuel_nil, scanFuel_nil]
  | succ f1 ih =>
    intro f2 l h1 h2
    cases l with
    | nil => rw [scanFuel_nil, scanFuel_nil]
    | cons c cs =>
      cases f2 with
      | zero => simp at h2
      | succ f2 =>
        simp only [List.length_cons, Nat.succ_le_succ_iff] at h1 h2
        by_cases hc : (c == '%') = true
        · simp only [scanFuel, hc, if_true]
          rcases hm : tryMatch cs with _ | ⟨nm, rest⟩
          · simp only [ih f2 cs h1 h2]
          · have hr := tryMatch_rest_length hm
            simp only [ih f2 rest (by omega) (by omega)]
        · have hc' : (c == '%') = false := by simpa using hc
          simp [scanFuel, hc', ih f2 cs h1 h2]

theorem scanStr_eq_fuel {f : Nat} {s : String} (h : s.data.length ≤ f) :
    scanStr s = scanFuel f s.data :=
  scanFuel_congr s.data.length f s.data (Nat.le_refl _) h

theorem isNameChar_of_isNameStart {c : Char} (h : isNameStart c = true) :
    isNameChar c = true := by
  simp only [isNameStart, Bool.or_eq_true] at h
  simp only [isNameChar, Char.isAlphanum, Bool.or_eq_true]
  rcases h with h | h
  · exact Or.inl (Or.inl h)
  · exact Or.inr h

theorem isNameChar_ne_pct {c : Char} (h : isNameChar c = true) : c ≠ '%' := by
  intro hc
  subst hc
  exact absurd h (by decide)

theorem tryMatch_name_pctFree {cs : List Char} {nm : String} {rest : List Char}
    (h : tryMatch cs = some (nm, rest)) : ∀ ch ∈ nm.data, ch ≠ '%' := by
  match cs with
  | [] => simp [tryMatch] at h
  | d :: ds =>
    simp only [tryMatch] at h
    split at h
    · rename_i hd
      split at h
      · rename_i rest0 heq
        simp only [Option.some.injEq, Prod.mk.injEq] at h
        obtain ⟨h1, -⟩ := h
        subst h1
        intro ch hch
        simp only [List.mem_cons] at hch
        rcases hch with hch | hch
        · subst hch
          exact isNameChar_ne_pct (isNameChar_of_isNameStart hd)
        · exact isNameChar_ne_pct (List.mem_takeWhile_imp hch)
      · exact absurd h (by simp)
    · exact absurd h (by simp)

theorem segNames_nil : segNames [] = [] := rfl

theorem segNames_cons_lit (ch : Char) (rest : List Seg) :
    segNames (.lit ch :: rest) = segNames rest := rfl

theorem segNames_cons_ph (nm : String) (rest : List Seg) :
    segNames (.ph nm :: rest) = nm :: segNames rest := rfl

theorem scanFuel_names_pctFree : ∀ f : Nat, ∀ l : List Char, l.length ≤ f →
    ∀ nm ∈ segNames (scanFuel f l), ∀ ch ∈ nm.data, ch ≠ '%' := by
  intro f
  induction f with
  | zero => intro l _ nm hnm; simp [scanFuel, segNames] at hnm
  | succ f ih =>
    intro l hl nm hnm
    cases l with
    | nil => simp [scanFuel, segNames] at hnm
    | cons c cs =>
      simp only [List.length_cons, Nat.succ_le_succ_iff] at hl
      by_cases hc : (c == '%') = true
      · rcases hm : tryMatch cs with _ | ⟨nm0, rest⟩
        · rw [scanFuel, if_pos hc, hm, segNames_cons_lit] at hnm
          exact ih cs hl nm hnm
        · rw [scanFuel, if_pos hc, hm, segNames_cons_ph] at hnm
          rcases List.mem_cons.mp hnm with h0 | h0
          · subst h0
            exact tryMatch_name_pctFree hm
          · have hr := tryMatch_rest_length hm
            exact ih rest (by omega) nm h0
      · have hc' : (c == '%') = false := by simpa using hc
        rw [scanFuel, hc', if_neg (by simp), segNames_cons_lit] at hnm
        exact ih cs hl nm hnm

theorem scanFuel_all_lit_of_pctFree : ∀ f : Nat, ∀ l : List Char, l.length ≤ f →
    (∀ ch ∈ l, ch ≠ '%') → scanFuel f l = l.map Seg.lit := by
  intro f
  induction f with
  | zero =>
    intro l hl _
    have : l = [] := List.length_eq_zero.mp (Nat.le_zero.mp hl)
    subst this
    rfl
  | succ f ih =>
    intro l hl hpf
    cases l with
    | nil => rfl
    | cons c cs =>
      simp only [List.length_cons, Nat.succ_le_succ_iff] at hl
      have hc : (c == '%') = false := by
        simpa using hpf c (List.mem_cons_self c cs)
      rw [scanFuel, hc, if_neg (by simp), List.map_cons,
        ih cs hl (fun ch hch => hpf ch (List.mem_cons_of_mem c hch))]

theorem scanFuel_all_lit_of_no_names : ∀ f : Nat, ∀ l : List Char, l.length ≤ f →
    segNames (scanFuel f l) = [] → scanFuel f l = l.map Seg.lit := by
  intro f
  induction f with
  | zero =>
    intro l hl _
    have : l = [] := List.length_eq_zero.mp (Nat.le_zero.mp hl)
    subst this
    rfl
  | succ f ih =>
    intro l hl hn
    cases l with
    | nil => rfl
    | cons c cs =>
      simp only [List.length_cons, Nat.succ_le_succ_iff] at hl
      by_cases hc : (c == '%') = true
      · rcases hm : tryMatch cs with _ | ⟨nm0, rest⟩
        · rw [scanFuel, if_pos hc, hm] at hn ⊢
          rw [segNames_cons_lit] at hn
          have hceq : c = '%' := by simpa using hc
          rw [List.map_cons, ih cs hl hn]
        · rw [scanFuel, if_pos hc, hm, segNames_cons_ph] at hn
          simp at hn
      · have hc' : (c == '%') = false := by simpa using hc
        rw [scanFuel, hc', if_neg (by simp)] at hn ⊢
        rw [segNames_cons_lit] at hn
        rw [List.map_cons, ih cs hl hn]

theorem renderSegs_map_lit : ∀ l : List Char, ∀ c : List (String × String),
    renderSegs (l.map Seg.lit) c = .ok l := by
  intro l c
  induction l with
  | nil => rfl
  | cons ch rest ih => rw [List.map_cons, renderSegs, ih]

/-! ### Dict lemmas -/

theorem mem_dkeys_iff_alookup_isSome (k : String) :
    ∀ m : List (String × String), k ∈ dkeys m ↔ (alookup m k).isSome = true := by
  intro m
  induction m with
  | nil => simp [dkeys, alookup]
  | cons p m ih =>
    obtain ⟨k', v'⟩ := p
    by_cases hk : k' = k
    · subst hk
      simp [dkeys, alookup]
    · have hk2 : k ≠ k' := Ne.symm hk
      simp only [dkeys, alookup] at ih ⊢
      simp [hk, hk2, ih]

theorem mem_of_alookup_eq_some {α : Type} {m : List (String × α)} {k : String}
    {v : α} (h : alookup m k = some v) : (k, v) ∈ m := by
  induction m with
  | nil => simp [alookup] at h
  | cons p m ih =>
    obtain ⟨k', v'⟩ := p
    by_cases hk : k' = k
    · subst hk
      simp only [alookup, beq_self_eq_true, if_pos] at h
      rw [Option.some.injEq] at h
      subst h
      exact List.mem_cons_self _ _
    · simp only [alookup, beq_iff_eq, hk, if_false] at h
      exact List.mem_cons_of_mem _ (ih h)

theorem mem_dkeys_dinsert (x k v : String) :
    ∀ m : List (String × String),
      x ∈ dkeys (dinsert m k v) ↔ x ∈ dkeys m ∨ x = k := by
  intro m
  induction m with
  | nil => simp [dinsert, dkeys]
  | cons p m ih =>
    obtain ⟨k', v'⟩ := p
    by_cases hk : k' = k
    · subst hk
      simp only [dinsert, beq_self_eq_true, if_pos, dkeys, List.map_cons,
        List.toFinset_cons, Finset.mem_insert]
      tauto
    · simp only [dinsert, beq_iff_eq, hk, if_false, dkeys, List.map_cons,
        List.toFinset_cons, Finset.mem_insert] at ih ⊢
      tauto

theorem mem_dkeys_dmerge (x : String) :
    ∀ upd base : List (String × String),
      x ∈ dkeys (dmerge base upd) ↔ x ∈ dkeys base ∨ x ∈ dkeys upd := by
  intro upd
  induction upd with
  | nil =>
    intro base
    simp [dmerge, dkeys]
  | cons p upd ih =>
    intro base
    obtain ⟨k, v⟩ := p
    have hstep : dmerge base ((k, v) :: upd) = dmerge (dinsert base k v) upd := rfl
    rw [hstep, ih, mem_dkeys_dinsert]
    simp only [dkeys, List.map_cons, List.toFinset_cons, Finset.mem_insert]
    tauto

/-! ### Substitution lemmas at the string level -/

theorem renderSegs_ok_of_covered :
    ∀ segs : List Seg, ∀ c : List (String × String),
      (∀ nm ∈ segNames segs, nm ∈ dkeys c) →
      ∃ t, renderSegs segs c = .ok t := by
  intro segs c
  induction segs with
  | nil => exact fun _ => ⟨[], rfl⟩
  | cons sg rest ih =>
    intro hcov
    cases sg with
    | lit ch =>
      obtain ⟨t, ht⟩ := ih (fun nm hnm => hcov nm (by rw [segNames_cons_lit]; exact hnm))
      exact ⟨ch :: t, by rw [renderSegs, ht]⟩
    | ph nm =>
      have hmem : nm ∈ dkeys c :=
        hcov nm (by rw [segNames_cons_ph]; exact List.mem_cons_self _ _)
      have hsome : (alookup c nm).isSome = true :=
        (mem_dkeys_iff_alookup_isSome nm c).mp hmem
      obtain ⟨v, hv⟩ := Option.isSome_iff_exists.mp hsome
      obtain ⟨t, ht⟩ := ih (fun nm0 hnm0 =>
        hcov nm0 (by rw [segNames_cons_ph]; exact List.mem_cons_of_mem _ hnm0))
      exact ⟨v.data ++ t, by rw [renderSegs, hv, ht]⟩

theorem renderSegs_output_pctFree :
    ∀ segs : List Seg, ∀ c : List (String × String), ∀ t : List Char,
      (∀ sg ∈ segs, segLitNotPct sg = true) →
      pctFreeVals c = true →
      renderSegs segs c = .ok t →
      ∀ ch ∈ t, ch ≠ '%' := by
  intro segs c
  induction segs with
  | nil =>
    intro t _ _ h
    rw [renderSegs, Except.ok.injEq] at h
    subst h
    simp
  | cons sg rest ih =>
    intro t hseg hvals h
    cases sg with
    | lit ch0 =>
      rw [renderSegs] at h
      rcases hr : renderSegs rest c with e | t0 <;> rw [hr] at h
      · simp at h
      · rw [Except.ok.injEq] at h
        subst h
        intro ch hch
        rcases List.mem_cons.mp hch with hch | hch
        · rw [hch]
          have := hseg (.lit ch0) (List.mem_cons_self _ _)
          simpa [segLitNotPct] using this
        · exact ih t0 (fun sg hsg => hseg sg (List.mem_cons_of_mem _ hsg)) hvals hr ch hch
    | ph nm =>
      rw [renderSegs] at h
      rcases ha : alookup c nm with _ | v <;> rw [ha] at h
      · simp at h
      · rcases hr : renderSegs rest c with e | t0 <;> rw [hr] at h
        · simp at h
        · rw [Except.ok.injEq] at h
          subst h
          intro ch hch
          rcases List.mem_append.mp hch with hch | hch
          · have hmem : (nm, v) ∈ c := mem_of_alookup_eq_some ha
            have := hvals
            rw [pctFreeVals, List.all_eq_true] at this
            have hv := this (nm, v) hmem
            rw [List.all_eq_true] at hv
            have := hv ch hch
            simpa using this
          · exact ih t0 (fun sg hsg => hseg sg (List.mem_cons_of_mem _ hsg)) hvals hr ch hch

theorem str_mk_data (l : List Char) : (String.mk l).data = l := rfl

theorem str_eta (s : String) : String.mk s.data = s := rfl

theorem segNames_map_lit : ∀ l : List Char, segNames (l.map Seg.lit) = [] := by
  intro l
  induction l with
  | nil => rfl
  | cons ch rest ih => rw [List.map_cons, segNames_cons_lit, ih]

theorem pattern_sub_ok_of_covered {s : String} {c : List (String × String)}
    (h : ∀ nm ∈ pattern_findall s, nm ∈ dkeys c) :
    ∃ t, pattern_sub s c = .ok t := by
  obtain ⟨t, ht⟩ := renderSegs_ok_of_covered (scanStr s) c h
  exact ⟨String.mk t, by rw [pattern_sub, ht]⟩

theorem pattern_sub_id_of_no_names {s : String} (c : List (String × String))
    (h : pattern_findall s = []) : pattern_sub s c = .ok s := by
  have hscan : scanStr s = s.data.map Seg.lit :=
    scanFuel_all_lit_of_no_names s.data.length s.data (Nat.le_refl _) h
  rw [pattern_sub, hscan, renderSegs_map_lit]

theorem pctFree_no_names {s : String} (h : ∀ ch ∈ s.data, ch ≠ '%') :
    pattern_findall s = [] := by
  have hscan : scanStr s = s.data.map Seg.lit :=
    scanFuel_all_lit_of_pctFree s.data.length s.data (Nat.le_refl _) h
  rw [pattern_findall, hscan, segNames_map_lit]

theorem pattern_sub_id_of_pctFree {s : String} (c : List (String × String))
    (h : ∀ ch ∈ s.data, ch ≠ '%') : pattern_sub s c = .ok s :=
  pattern_sub_id_of_no_names c (pctFree_no_names h)

theorem pattern_sub_output_pctFree {s t : String} {c : List (String × String)}
    (hstray : noStrayStr s = true) (hvals : pctFreeVals c = true)
    (h : pattern_sub s c = .ok t) : ∀ ch ∈ t.data, ch ≠ '%' := by
  rw [pattern_sub] at h
  rcases hr : renderSegs (scanStr s) c with e | t0 <;> rw [hr] at h
  · simp at h
  · simp only [Except.ok.injEq] at h
    rw [← h, str_mk_data]
    refine renderSegs_output_pctFree (scanStr s) c t0 ?_ hvals hr
    rw [noStrayStr, List.all_eq_true] at hstray
    exact hstray

theorem pattern_sub_idem {s t : String} {c : List (String × String)}
    (hstray : noStrayStr s = true) (hvals : pctFreeVals c = true)
    (h : pattern_sub s c = .ok t) : pattern_sub t c = .ok t :=
  pattern_sub_id_of_pctFree c (pattern_sub_output_pctFree hstray hvals h)

/-! ### stripPercent lemmas -/

theorem dropWhile_pct_eq_self {l : List Char} (h : ∀ ch ∈ l, ch ≠ '%') :
    l.dropWhile (· == '%') = l := by
  cases l with
  | nil => rfl
  | cons c cs =>
    have hc : (c == '%') = false := by simpa using h c (List.mem_cons_self _ _)
    simp [List.dropWhile_cons, hc]

theorem stripPercent_eq_self {s : String} (h : ∀ ch ∈ s.data, ch ≠ '%') :
    stripPercent s = s := by
  rw [stripPercent, dropWhile_pct_eq_self h,
    dropWhile_pct_eq_self (fun ch hch => h ch (List.mem_reverse.mp hch)),
    List.reverse_reverse, str_eta]

/-! ### Placeholder names contain no percent sign -/

mutual

theorem find_placeholders_pctFree :
    ∀ j : Json, ∀ nm ∈ find_placeholders j, ∀ ch ∈ nm.data, ch ≠ '%'
  | .obj kvs => fun nm hnm => findPlaceholdersObj_pctFree kvs nm hnm
  | .arr xs => fun nm hnm => findPlaceholdersArr_pctFree xs nm hnm
  | .str s => fun nm hnm => by
    have hmem : nm ∈ segNames (scanStr s) := by
      have : nm ∈ (pattern_findall s).toFinset := hnm
      simpa [pattern_findall] using this
    exact scanFuel_names_pctFree s.data.length s.data (Nat.le_refl _) nm hmem
  | .num n => by simp [find_placeholders]
  | .bool b => by simp [find_placeholders]
  | .null => by simp [find_placeholders]

theorem findPlaceholdersObj_pctFree :
    ∀ kvs : List (String × Json), ∀ nm ∈ findPlaceholdersObj kvs,
      ∀ ch ∈ nm.data, ch ≠ '%'
  | [] => by simp [findPlaceholdersObj]
  | (k, v) :: rest => fun nm hnm => by
    have hnm' : nm ∈ find_placeholders v ∪ findPlaceholdersObj rest := hnm
    rcases Finset.mem_union.mp hnm' with h | h
    · exact find_placeholders_pctFree v nm h
    · exact findPlaceholdersObj_pctFree rest nm h

theorem findPlaceholdersArr_pctFree :
    ∀ xs : List Json, ∀ nm ∈ findPlaceholdersArr xs, ∀ ch ∈ nm.data, ch ≠ '%'
  | [] => by simp [findPlaceholdersArr]
  | x :: rest => fun nm hnm => by
    have hnm' : nm ∈ find_placeholders x ∪ findPlaceholdersArr rest := hnm
    rcases Finset.mem_union.mp hnm' with h | h
    · exact find_placeholders_pctFree x nm h
    · exact findPlaceholdersArr_pctFree rest nm h

end

/-! ### Extracted credentials have wanted keys only -/

theorem dkeys_dmerge_subset {acc inner : List (String × String)} {ks : Finset String}
    (h1 : dkeys acc ⊆ ks) (h2 : dkeys inner ⊆ ks) : dkeys (dmerge acc inner) ⊆ ks := by
  intro x hx
  rcases (mem_dkeys_dmerge x inner acc).mp hx with h | h
  · exact h1 h
  · exact h2 h

theorem dkeys_dinsert_subset {acc : List (String × String)} {ks : Finset String}
    {k v : String} (h1 : dkeys acc ⊆ ks) (h2 : k ∈ ks) :
    dkeys (dinsert acc k v) ⊆ ks := by
  intro x hx
  rcases (mem_dkeys_dinsert x k v acc).mp hx with h | h
  · exact h1 h
  · exact h ▸ h2

mutual

theorem findSecrets_dkeys_subset :
    ∀ obj : Json, ∀ ks : Finset String,
      dkeys (find_secret_values_from_credentials_recursively obj ks) ⊆ ks
  | .obj kvs => fun ks =>
    findSecretsObj_dkeys_subset kvs ks [] (by simp [dkeys])
  | .arr xs => fun ks => by simp [find_secret_values_from_credentials_recursively, dkeys]
  | .str s => fun ks => by simp [find_secret_values_from_credentials_recursively, dkeys]
  | .num n => fun ks => by simp [find_secret_values_from_credentials_recursively, dkeys]
  | .bool b => fun ks => by simp [find_secret_values_from_credentials_recursively, dkeys]
  | .null => fun ks => by simp [find_secret_values_from_credentials_recursively, dkeys]

theorem findSecretsObj_dkeys_subset :
    ∀ kvs : List (String × Json), ∀ ks : Finset String,
      ∀ acc : List (String × String), dkeys acc ⊆ ks →
        dkeys (findSecretsObj kvs ks acc) ⊆ ks
  | [] => fun ks acc hacc => hacc
  | (k, .str s) :: rest => fun ks acc hacc => by
    refine findSecretsObj_dkeys_subset rest ks _ ?_
    by_cases hk : k ∈ ks
    · rw [if_pos hk]
      exact dkeys_dinsert_subset hacc hk
    · rw [if_neg hk]
      exact hacc
  | (k, .obj kvs2) :: rest => fun ks acc hacc =>
    findSecretsObj_dkeys_subset rest ks _
      (dkeys_dmerge_subset hacc (findSecrets_dkeys_subset (.obj kvs2) ks))
  | (k, .arr xs) :: rest => fun ks acc hacc =>
    findSecretsObj_dkeys_subset rest ks _
      (dkeys_dmerge_subset hacc (findSecrets_dkeys_subset (.arr xs) ks))
  | (k, .num n) :: rest => fun ks acc hacc =>
    findSecretsObj_dkeys_subset rest ks _
      (dkeys_dmerge_subset hacc (findSecrets_dkeys_subset (.num n) ks))
  | (k, .bool b) :: rest => fun ks acc hacc =>
    findSecretsObj_dkeys_subset rest ks _
      (dkeys_dmerge_subset hacc (findSecrets_dkeys_subset (.bool b) ks))
  | (k, .null) :: rest => fun ks acc hacc =>
    findSecretsObj_dkeys_subset rest ks _
      (dkeys_dmerge_subset hacc (findSecrets_dkeys_subset .null ks))

end

theorem image_stripPercent_placeholders (cfg : Json) :
    (find_placeholders cfg).image stripPercent = find_placeholders cfg := by
  have h : ∀ nm ∈ find_placeholders cfg, stripPercent nm = nm := fun nm hnm =>
    stripPercent_eq_self (find_placeholders_pctFree cfg nm hnm)
  calc (find_placeholders cfg).image stripPercent
      = (find_placeholders cfg).image id := Finset.image_congr h
    _ = find_placeholders cfg := Finset.image_id

theorem load_credentials_dkeys_subset (doc cfg : Json) :
    dkeys (load_credentials doc (find_placeholders cfg)) ⊆ find_placeholders cfg := by
  rw [load_credentials, image_stripPercent_placeholders]
  exact findSecrets_dkeys_subset doc (find_placeholders cfg)

theorem unusedCredentials_empty (cfg doc : Json) : unusedCredentials cfg doc = ∅ := by
  rw [unusedCredentials]
  exact Finset.sdiff_eq_empty_iff_subset.mpr (load_credentials_dkeys_subset doc cfg)

/-! ### Covered substitution cannot fail -/

mutual

theorem replace_ok_of_covered :
    ∀ j : Json, ∀ c : List (String × String), find_placeholders j ⊆ dkeys c →
      ∃ j2, replace_placeholders j c = .ok j2
  | .obj kvs => fun c h => by
    obtain ⟨kvs2, hk⟩ := replaceObj_ok_of_covered kvs c h
    exact ⟨.obj kvs2, by simp [replace_placeholders, hk]⟩
  | .arr xs => fun c h => by
    obtain ⟨xs2, hk⟩ := replaceArr_ok_of_covered xs c h
    exact ⟨.arr xs2, by simp [replace_placeholders, hk]⟩
  | .str s => fun c h => by
    obtain ⟨t, ht⟩ := pattern_sub_ok_of_covered
      (fun nm hnm => h (List.mem_toFinset.mpr hnm))
    exact ⟨.str t, by simp [replace_placeholders, ht]⟩
  | .num n => fun c _ => ⟨.num n, rfl⟩
  | .bool b => fun c _ => ⟨.bool b, rfl⟩
  | .null => fun c _ => ⟨.null, rfl⟩

theorem replaceObj_ok_of_covered :
    ∀ kvs : List (String × Json), ∀ c : List (String × String),
      findPlaceholdersObj kvs ⊆ dkeys c → ∃ kvs2, replaceObj kvs c = .ok kvs2
  | [] => fun c _ => ⟨[], rfl⟩
  | (k, v) :: rest => fun c h => by
    have h1 : find_placeholders v ⊆ dkeys c := fun x hx =>
      h (Finset.mem_union_left _ hx)
    have h2 : findPlaceholdersObj rest ⊆ dkeys c := fun x hx =>
      h (Finset.mem_union_right _ hx)
    obtain ⟨v2, hv⟩ := replace_ok_of_covered v c h1
    obtain ⟨rest2, hr⟩ := replaceObj_ok_of_covered rest c h2
    exact ⟨(k, v2) :: rest2, by simp [replaceObj, hv, hr]⟩

theorem replaceArr_ok_of_covered :
    ∀ xs : List Json, ∀ c : List (String × String),
      findPlaceholdersArr xs ⊆ dkeys c → ∃ xs2, replaceArr xs c = .ok xs2
  | [] => fun c _ => ⟨[], rfl⟩
  | x :: rest => fun c h => by
    have h1 : find_placeholders x ⊆ dkeys c := fun y hy =>
      h (Finset.mem_union_left _ hy)
    have h2 : findPlaceholdersArr rest ⊆ dkeys c := fun y hy =>
      h (Finset.mem_union_right _ hy)
    obtain ⟨x2, hx⟩ := replace_ok_of_covered x c h1
    obtain ⟨rest2, hr⟩ := replaceArr_ok_of_covered rest c h2
    exact ⟨x2 :: rest2, by simp [replaceArr, hx, hr]⟩

end

/-! ### Substitution is the identity on placeholder-free documents -/

mutual

theorem replace_id_of_no_placeholders :
    ∀ j : Json, ∀ c : List (String × String), find_placeholders j = ∅ →
      replace_placeholders j c = .ok j
  | .obj kvs => fun c h => by
    have hk : replaceObj kvs c = .ok kvs := replaceObjId_of_no_placeholders kvs c h
    simp [replace_placeholders, hk]
  | .arr xs => fun c h => by
    have hk : replaceArr xs c = .ok xs := replaceArrId_of_no_placeholders xs c h
    simp [replace_placeholders, hk]
  | .str s => fun c h => by
    have hnil : pattern_findall s = [] := by
      have h2 : (pattern_findall s).toFinset = ∅ := h
      simpa using h2
    simp [replace_placeholders, pattern_sub_id_of_no_names c hnil]
  | .num n => fun c _ => rfl
  | .bool b => fun c _ => rfl
  | .null => fun c _ => rfl

theorem replaceObjId_of_no_placeholders :
    ∀ kvs : List (String × Json), ∀ c : List (String × String),
      findPlaceholdersObj kvs = ∅ → replaceObj kvs c = .ok kvs
  | [] => fun c _ => rfl
  | (k, v) :: rest => fun c h => by
    have h2 : find_placeholders v ∪ findPlaceholdersObj rest = ∅ := h
    rw [Finset.union_eq_empty] at h2
    have hv := replace_id_of_no_placeholders v c h2.1
    have hr := replaceObjId_of_no_placeholders rest c h2.2
    simp [replaceObj, hv, hr]

theorem replaceArrId_of_no_placeholders :
    ∀ xs : List Json, ∀ c : List (String × String),
      findPlaceholdersArr xs = ∅ → replaceArr xs c = .ok xs
  | [] => fun c _ => rfl
  | x :: rest => fun c h => by
    have h2 : find_placeholders x ∪ findPlaceholdersArr rest = ∅ := h
    rw [Finset.union_eq_empty] at h2
    have hx := replace_id_of_no_placeholders x c h2.1
    have hr := replaceArrId_of_no_placeholders rest c h2.2
    simp [replaceArr, hx, hr]

end

/-! ### Output of substitution has no placeholders, under the percent-free
side conditions -/

theorem pattern_sub_output_no_names {s t : String} {c : List (String × String)}
    (hstray : noStrayStr s = true) (hvals : pctFreeVals c = true)
    (h : pattern_sub s c = .ok t) : pattern_findall t = [] :=
  pctFree_no_names (pattern_sub_output_pctFree hstray hvals h)

mutual

theorem replace_output_no_placeholders :
    ∀ j : Json, ∀ c : List (String × String), ∀ j2 : Json,
      noStray j = true → pctFreeVals c = true →
      replace_placeholders j c = .ok j2 → find_placeholders j2 = ∅
  | .obj kvs => fun c j2 hs hv h => by
    have hs' : noStrayObj kvs = true := hs
    simp only [replace_placeholders] at h
    rcases hk : replaceObj kvs c with e | kvs2 <;> rw [hk] at h
    · simp at h
    · simp only [Except.ok.injEq] at h
      subst h
      exact replaceObj_output_no_placeholders kvs c kvs2 hs' hv hk
  | .arr xs => fun c j2 hs hv h => by
    have hs' : noStrayArr xs = true := hs
    simp only [replace_placeholders] at h
    rcases hk : replaceArr xs c with e | xs2 <;> rw [hk] at h
    · simp at h
    · simp only [Except.ok.injEq] at h
      subst h
      exact replaceArr_output_no_placeholders xs c xs2 hs' hv hk
  | .str s => fun c j2 hs hv h => by
    have hs' : noStrayStr s = true := hs
    simp only [replace_placeholders] at h
    rcases hk : pattern_sub s c with e | t <;> rw [hk] at h
    · simp at h
    · simp only [Except.ok.injEq] at h
      subst h
      have hnil : pattern_findall t = [] := pattern_sub_output_no_names hs' hv hk
      show (pattern_findall t).toFinset = ∅
      rw [hnil]
      rfl
  | .num n => fun c j2 _ _ h => by
    simp only [replace_placeholders, Except.ok.injEq] at h
    subst h
    rfl
  | .bool b => fun c j2 _ _ h => by
    simp only [replace_placeholders, Except.ok.injEq] at h
    subst h
    rfl
  | .null => fun c j2 _ _ h => by
    simp only [replace_placeholders, Except.ok.injEq] at h
    subst h
    rfl

theorem replaceObj_output_no_placeholders :
    ∀ kvs : List (String × Json), ∀ c : List (String × String),
      ∀ kvs2 : List (String × Json),
      noStrayObj kvs = true → pctFreeVals c = true →
      replaceObj kvs c = .ok kvs2 → findPlaceholdersObj kvs2 = ∅
  | [] => fun c kvs2 _ _ h => by
    simp only [replaceObj, Except.ok.injEq] at h
    subst h
    rfl
  | (k, v) :: rest => fun c kvs2 hs hv h => by
    have hs' : (noStray v && noStrayObj rest) = true := hs
    rw [Bool.and_eq_true] at hs'
    simp only [replaceObj] at h
    rcases hrv : replace_placeholders v c with e | v2 <;> rw [hrv] at h
    · simp at h
    · rcases hrr : replaceObj rest c with e | rest2 <;> rw [hrr] at h
      · simp at h
      · simp only [Except.ok.injEq] at h
        subst h
        show find_placeholders v2 ∪ findPlaceholdersObj rest2 = ∅
        rw [replace_output_no_placeholders v c v2 hs'.1 hv hrv,
          replaceObj_output_no_placeholders rest c rest2 hs'.2 hv hrr,
          Finset.empty_union]

theorem replaceArr_output_no_placeholders :
    ∀ xs : List Json, ∀ c : List (String × String), ∀ xs2 : List Json,
      noStrayArr xs = true → pctFreeVals c = true →
      replaceArr xs c = .ok xs2 → findPlaceholdersArr xs2 = ∅
  | [] => fun c xs2 _ _ h => by
    simp only [replaceArr, Except.ok.injEq] at h
    subst h
    rfl
  | x :: rest => fun c xs2 hs hv h => by
    have hs' : (noStray x && noStrayArr rest) = true := hs
    rw [Bool.and_eq_true] at hs'
    simp only [replaceArr] at h
    rcases hrx : replace_placeholders x c with e | x2 <;> rw [hrx] at h
    · simp at h
    · rcases hrr : replaceArr rest c with e | rest2 <;> rw [hrr] at h
      · simp at h
      · simp only [Except.ok.injEq] at h
        subst h
        show find_placeholders x2 ∪ findPlaceholdersArr rest2 = ∅
        rw [replace_output_no_placeholders x c x2 hs'.1 hv hrx,
          replaceArr_output_no_placeholders rest c rest2 hs'.2 hv hrr,
          Finset.empty_union]

end

/-! ### Keys are not substitution points -/

theorem findPlaceholdersObj_key_invariant :
    ∀ kvs : List (String × Json), ∀ f : String → String,
      findPlaceholdersObj (kvs.map fun p => (f p.1, p.2)) = findPlaceholdersObj kvs := by
  intro kvs f
  induction kvs with
  | nil => rfl
  | cons p rest ih =>
    obtain ⟨k, v⟩ := p
    show find_placeholders v ∪ findPlaceholdersObj (rest.map fun p => (f p.1, p.2)) =
      find_placeholders v ∪ findPlaceholdersObj rest
    rw [ih]

theorem replaceObj_preserves_keys :
    ∀ kvs : List (String × Json), ∀ c : List (String × String),
      ∀ kvs2 : List (String × Json),
      replaceObj kvs c = .ok kvs2 → kvs2.map Prod.fst = kvs.map Prod.fst := by
  intro kvs c
  induction kvs with
  | nil =>
    intro kvs2 h
    simp only [replaceObj, Except.ok.injEq] at h
    subst h
    rfl
  | cons p rest ih =>
    obtain ⟨k, v⟩ := p
    intro kvs2 h
    simp only [replaceObj] at h
    rcases hrv : replace_placeholders v c with e | v2 <;> rw [hrv] at h
    · simp at h
    · rcases hrr : replaceObj rest c with e | rest2 <;> rw [hrr] at h
      · simp at h
      · simp only [Except.ok.injEq] at h
        subst h
        simp only [List.map_cons]
        rw [ih rest2 hrr]

/-! ### A non-empty missing set is fatal and fully reported -/

theorem processServers_missing
    (files : String → Option Json) (server_name : String) (cfg doc : Json)
    (rest : List (String × Json))
    (hf : files server_name = some doc)
    (hph : find_placeholders cfg ≠ ∅)
    (hm : find_placeholders cfg \ dkeys (load_credentials doc (find_placeholders cfg)) ≠ ∅) :
    processServers files ((server_name, cfg) :: rest) =
      .error (.missingCredentials server_name
        (find_placeholders cfg \ dkeys (load_credentials doc (find_placeholders cfg)))) := by
  simp only [processServers]
  rw [if_neg hph, hf]
  exact if_neg hm

/-! ## Claims -/

/-- C1 counterexample: for credential document `{"KEY": "v1", "UNUSED":
"v2"}` against the placeholder set of section config `{"token": "%KEY%"}`
(which is `{KEY}`), the unused-credentials set the code computes is empty,
not `{UNUSED}`: extraction already discarded the `UNUSED` entry, so the
claimed warning is never reported. -/
theorem C1_counterexample :
    unusedCredentials (.obj [("token", .str "%KEY%")])
        (.obj [("KEY", .str "v1"), ("UNUSED", .str "v2")]) = ∅ ∧
    unusedCredentials (.obj [("token", .str "%KEY%")])
        (.obj [("KEY", .str "v1"), ("UNUSED", .str "v2")]) ≠ {"UNUSED"} :=
  ⟨by decide, by decide⟩

/-- C1 (amended): when the credential document contains entries beyond the
requested placeholders, resolution succeeds with `v1` substituted and no
trace of `UNUSED` in the output; the extra `UNUSED` entry is dropped during
extraction, so the unused set computed by the reconciliation step is empty
and no warning is reported. -/
theorem C1_extra_entries_resolution :
    generate_config
        (.obj [("servers", .obj [("a", .obj [("token", .str "%KEY%")])])])
        (fun nm => if nm == "a" then
          some (.obj [("KEY", .str "v1"), ("UNUSED", .str "v2")]) else none) =
      .ok (.obj [("servers", .obj [("a", .obj [("token", .str "v1")])])]) ∧
    unusedCredentials (.obj [("token", .str "%KEY%")])
        (.obj [("KEY", .str "v1"), ("UNUSED", .str "v2")]) = ∅ :=
  ⟨rfl, by decide⟩

/-- C2: the key set of the mapping returned by
`find_secret_values_from_credentials_recursively` is always included in the
wanted-name set, and consequently the unused-credentials set computed in
`generate_config` after extraction is always empty. -/
theorem C2_extraction_keys_subset_unused_empty :
    (∀ (doc : Json) (wanted : Finset String),
      dkeys (find_secret_values_from_credentials_recursively doc wanted) ⊆ wanted) ∧
    (∀ server_config credt_file_content : Json,
      unusedCredentials server_config credt_file_content = ∅) :=
  ⟨findSecrets_dkeys_subset, unusedCredentials_empty⟩

/-- C2 witness at a concrete credential document and section config. -/
theorem C2_witness :
    dkeys (find_secret_values_from_credentials_recursively
        (.obj [("KEY", .str "v1"), ("UNUSED", .str "v2")]) {"KEY"}) ⊆ {"KEY"} ∧
    unusedCredentials (.obj [("token", .str "%KEY%")])
        (.obj [("KEY", .str "v1"), ("UNUSED", .str "v2")]) = ∅ :=
  ⟨C2_extraction_keys_subset_unused_empty.1
      (.obj [("KEY", .str "v1"), ("UNUSED", .str "v2")]) {"KEY"},
    C2_extraction_keys_subset_unused_empty.2
      (.obj [("token", .str "%KEY%")])
      (.obj [("KEY", .str "v1"), ("UNUSED", .str "v2")])⟩

/-- C3: whenever the credential mapping covers every discovered placeholder
of a node, `replace_placeholders` succeeds — the defensive
missing-credential error branch is unreachable under that precondition. -/
theorem C3_defensive_error_unreachable :
    ∀ (node : Json) (credentials : List (String × String)),
      find_placeholders node ⊆ dkeys credentials →
      (∃ node2, replace_placeholders node credentials = .ok node2) ∧
        ∀ e, replace_placeholders node credentials ≠ .error e := by
  intro node credentials h
  obtain ⟨node2, hn⟩ := replace_ok_of_covered node credentials h
  refine ⟨⟨node2, hn⟩, fun e he => ?_⟩
  rw [hn] at he
  exact Except.noConfusion he

/-- C3 witness at a concrete covered node. -/
theorem C3_witness :
    find_placeholders (.str "%KEY%") ⊆ dkeys [("KEY", "v")] ∧
    ∃ node2, replace_placeholders (.str "%KEY%") [("KEY", "v")] = .ok node2 :=
  ⟨by decide,
    (C3_defensive_error_unreachable (.str "%KEY%") [("KEY", "v")] (by decide)).1⟩

/-- C4: credential extraction never recurses into sequences — on a list
document it returns the empty mapping, and a wanted key whose string value
is reachable only through a list is never recorded. -/
theorem C4_sequences_not_recursed :
    (∀ (xs : List Json) (wanted : Finset String),
      find_secret_values_from_credentials_recursively (.arr xs) wanted = []) ∧
    find_secret_values_from_credentials_recursively
        (.obj [("items", .arr [.obj [("KEY", .str "vsecret")]])]) {"KEY"} = [] :=
  ⟨fun _ _ => rfl, rfl⟩

/-- C5: a non-empty missing set aborts resolution with an error naming the
section and carrying the full set of missing placeholder names; in
particular the single-section template with an empty credential document
fails naming `a` and `KEY`. -/
theorem C5_missing_credentials_fatal :
    (∀ (files : String → Option Json) (server_name : String) (cfg doc : Json)
        (rest : List (String × Json)),
      files server_name = some doc →
      find_placeholders cfg ≠ ∅ →
      find_placeholders cfg \ dkeys (load_credentials doc (find_placeholders cfg)) ≠ ∅ →
      processServers files ((server_name, cfg) :: rest) =
        .error (.missingCredentials server_name
          (find_placeholders cfg \
            dkeys (load_credentials doc (find_placeholders cfg))))) ∧
    generate_config
        (.obj [("servers", .obj [("a", .obj [("token", .str "%KEY%")])])])
        (fun nm => if nm == "a" then some (.obj []) else none) =
      .error (.missingCredentials "a" {"KEY"}) :=
  ⟨processServers_missing, rfl⟩

/-- C5 witness at the concrete failing section. -/
theorem C5_witness :
    processServers (fun nm => if nm == "a" then some (.obj []) else none)
        [("a", .obj [("token", .str "%KEY%")])] =
      .error (.missingCredentials "a"
        (find_placeholders (.obj [("token", .str "%KEY%")]) \
          dkeys (load_credentials (.obj [])
            (find_placeholders (.obj [("token", .str "%KEY%")]))))) :=
  C5_missing_credentials_fatal.1 _ "a" (.obj [("token", .str "%KEY%")])
    (.obj []) [] rfl (by decide) (by decide)

/-- C6: with every placeholder covered, substitution replaces every
occurrence: the single-section template resolves to the substituted
document, and the string with two placeholders `"%A%-%B%"` resolves to
`"x-y"`. -/
theorem C6_full_substitution :
    generate_config
        (.obj [("servers", .obj [("a", .obj [("token", .str "%KEY%")])])])
        (fun nm => if nm == "a" then some (.obj [("KEY", .str "secret123")]) else none) =
      .ok (.obj [("servers", .obj [("a", .obj [("token", .str "secret123")])])]) ∧
    pattern_sub "%A%-%B%" [("A", "x"), ("B", "y")] = .ok "x-y" :=
  ⟨rfl, rfl⟩

/-- C7 counterexample: with credential value `"%"` (which is not itself a
placeholder token), substituting in `"%A%B%"` succeeds and yields `"%B%"`,
which contains the placeholder `B` even though the input's only placeholder
was `A`: substitution can introduce new placeholder syntax when a secret
value contains a percent sign. -/
theorem C7_counterexample :
    find_placeholders (.str "%A%B%") ⊆ dkeys [("A", "%")] ∧
    replace_placeholders (.str "%A%B%") [("A", "%")] = .ok (.str "%B%") ∧
    "B" ∈ find_placeholders (.str "%B%") ∧
    "B" ∉ find_placeholders (.str "%A%B%") :=
  ⟨by decide, rfl, by decide, by decide⟩

/-- C7 (amended): substitution splices secret values in verbatim without
re-scanning them; provided no secret value contains a `%` character and
every `%` of the input belongs to a matched placeholder, the output of a
successful substitution contains no placeholder syntax at all. -/
theorem C7_output_placeholder_free :
    ∀ (node : Json) (credentials : List (String × String)) (node2 : Json),
      noStray node = true → pctFreeVals credentials = true →
      replace_placeholders node credentials = .ok node2 →
      find_placeholders node2 = ∅ :=
  replace_output_no_placeholders

/-- C7 witness at a concrete node and credential mapping. -/
theorem C7_witness :
    noStray (.obj [("token", .str "%KEY%")]) = true ∧
    pctFreeVals [("KEY", "secret123")] = true ∧
    replace_placeholders (.obj [("token", .str "%KEY%")]) [("KEY", "secret123")] =
      .ok (.obj [("token", .str "secret123")]) ∧
    find_placeholders (.obj [("token", .str "secret123")]) = ∅ :=
  ⟨by decide, by decide, rfl,
    C7_output_placeholder_free (.obj [("token", .str "%KEY%")])
      [("KEY", "secret123")] (.obj [("token", .str "secret123")])
      (by decide) (by decide) rfl⟩

/-- C8 counterexample: for `s = "%A%A%"` and `c = {A: "%"}`, `c` covers
every placeholder of `s` and its only secret value `"%"` contains no `%x%`
token, yet substituting once yields `"%A%"` and substituting that again
yields `"%"`: substitution is not idempotent under the claim's stated
hypotheses. -/
theorem C8_counterexample :
    find_placeholders (.str "%A%A%") ⊆ dkeys [("A", "%")] ∧
    pattern_findall "%" = [] ∧
    pattern_sub "%A%A%" [("A", "%")] = .ok "%A%" ∧
    pattern_sub "%A%" [("A", "%")] = .ok "%" ∧
    ("%" : String) ≠ "%A%" :=
  ⟨by decide, rfl, rfl, rfl, by decide⟩

/-- C8 (amended): substitution on strings is idempotent provided no secret
value contains the `%` character and every `%` of the input string belongs
to a matched placeholder: a successful first pass then yields a string that
a second pass maps to itself. -/
theorem C8_idempotent :
    ∀ (s t : String) (c : List (String × String)),
      noStrayStr s = true → pctFreeVals c = true →
      pattern_sub s c = .ok t → pattern_sub t c = .ok t :=
  fun _ _ _ h1 h2 h3 => pattern_sub_idem h1 h2 h3

/-- C8 witness at a concrete string and credential mapping. -/
theorem C8_witness :
    noStrayStr "%A%-%B%" = true ∧
    pctFreeVals [("A", "x"), ("B", "y")] = true ∧
    pattern_sub "%A%-%B%" [("A", "x"), ("B", "y")] = .ok "x-y" ∧
    pattern_sub "x-y" [("A", "x"), ("B", "y")] = .ok "x-y" :=
  ⟨by decide, by decide, rfl,
    C8_idempotent "%A%-%B%" "x-y" [("A", "x"), ("B", "y")]
      (by decide) (by decide) rfl⟩

/-- C9: on a document with zero placeholders, placeholder discovery returns
the empty set and substitution with the empty credential mapping returns
the document unchanged. -/
theorem C9_identity_on_placeholder_free :
    ∀ d : Json, find_placeholders d = ∅ → replace_placeholders d [] = .ok d :=
  fun d h => replace_id_of_no_placeholders d [] h

/-- C9 witness at a concrete placeholder-free document. -/
theorem C9_witness :
    find_placeholders (.obj [("a", .arr [.str "x", .num 3])]) = ∅ ∧
    replace_placeholders (.obj [("a", .arr [.str "x", .num 3])]) [] =
      .ok (.obj [("a", .arr [.str "x", .num 3])]) :=
  ⟨by decide, C9_identity_on_placeholder_free
    (.obj [("a", .arr [.str "x", .num 3])]) (by decide)⟩

/-- C10: mapping keys are never substitution points: placeholder discovery
over a dict is invariant under renaming its keys (it scans only the
values), substitution preserves the key list of every dict it processes,
and a `%NAME%` token inside a key is neither reported as a placeholder nor
replaced. -/
theorem C10_keys_never_substituted :
    (∀ (kvs : List (String × Json)) (f : String → String),
      find_placeholders (.obj (kvs.map fun p => (f p.1, p.2))) =
        find_placeholders (.obj kvs)) ∧
    (∀ (kvs : List (String × Json)) (credentials : List (String × String))
        (kvs2 : List (String × Json)),
      replaceObj kvs credentials = .ok kvs2 →
        kvs2.map Prod.fst = kvs.map Prod.fst) ∧
    find_placeholders (.obj [("%NAME%", .str "v")]) = ∅ ∧
    replace_placeholders (.obj [("%NAME%", .str "v")]) [] =
      .ok (.obj [("%NAME%", .str "v")]) :=
  ⟨fun kvs f => findPlaceholdersObj_key_invariant kvs f,
    replaceObj_preserves_keys, by decide, rfl⟩

/-- C10 witness: substituting a concrete dict leaves its key list
unchanged. -/
theorem C10_witness :
    replaceObj [("k", Json.str "%KEY%")] [("KEY", "v")] = .ok [("k", Json.str "v")] ∧
    [("k", Json.str "v")].map Prod.fst = [("k", Json.str "%KEY%")].map Prod.fst :=
  ⟨rfl, C10_keys_never_substituted.2.1 [("k", Json.str "%KEY%")] [("KEY", "v")]
    [("k", Json.str "v")] rfl⟩
